import Mathlib

/-!
Verification of the Rosenbrock oracle functions and the Newton-CG driver
contract from `solving_unconstrained_nonlinear_programming_models_2.ipynb`.

Vectors of dimension `n` are embedded as functions `ℕ → ℝ` together with an
explicit dimension argument `n`; a numpy array of length `n` corresponds to the
values at indices `0, …, n-1`.
-/

open Finset

/-- Embedding of `Rosenbrock(x) = np.sum(100.0 * (x[1:] - x[:-1]**2)**2 + (1 - x[:-1])**2)`:
the vectorized sum pairs `x[i+1]` with `x[i]` for `i = 0, …, n-2`. -/
def Rosenbrock (n : ℕ) (x : ℕ → ℝ) : ℝ :=
  ∑ i ∈ Finset.range (n - 1), (100 * (x (i + 1) - x i ^ 2) ^ 2 + (1 - x i) ^ 2)

/-- Embedding of `Rosenbrock_derivative(x)`: the result array starts as
`np.zeros_like(x)`; indices `1, …, n-2` receive the vectorized middle formula
`200*(xm - xm_m1**2) - 400*xm*(xm_p1 - xm**2) - 2*(1 - xm)`, index `0` receives
`-400*x[0]*(x[1] - x[0]**2) - 2*(1 - x[0])` and index `n-1` receives
`200*(x[-1] - x[-2]**2)`.  The three assigned regions are disjoint for `n ≥ 2`,
so the order of the assignments does not matter. -/
def Rosenbrock_derivative (n : ℕ) (x : ℕ → ℝ) : ℕ → ℝ := fun i =>
  if i = 0 then -400 * x 0 * (x 1 - x 0 ^ 2) - 2 * (1 - x 0)
  else if i = n - 1 then 200 * (x (n - 1) - x (n - 2) ^ 2)
  else if i < n - 1 then
    200 * (x i - x (i - 1) ^ 2) - 400 * x i * (x (i + 1) - x i ^ 2) - 2 * (1 - x i)
  else 0

/-- The `diagonal` array built inside `Rosenbrock_second_derivative`:
`diagonal[0] = 1200*x[0]**2 - 400*x[1] + 2`, `diagonal[-1] = 200`,
`diagonal[1:-1] = 202 + 1200*x[1:-1]**2 - 400*x[2:]` (disjoint regions for
`n ≥ 2`, so assignment order is irrelevant). -/
def RosenbrockDiagonal (n : ℕ) (x : ℕ → ℝ) : ℕ → ℝ := fun i =>
  if i = 0 then 1200 * x 0 ^ 2 - 400 * x 1 + 2
  else if i = n - 1 then 200
  else if i < n - 1 then 202 + 1200 * x i ^ 2 - 400 * x (i + 1)
  else 0

/-- Embedding of `Rosenbrock_second_derivative(x)`:
`H = np.diag(-400*x[:-1], 1) - np.diag(400*x[:-1], -1) + np.diag(diagonal)`,
i.e. entry `(i, i+1)` is `-400*x[i]`, entry `(i+1, i)` is `-400*x[i]`, and the
main diagonal is `RosenbrockDiagonal`. -/
def Rosenbrock_second_derivative (n : ℕ) (x : ℕ → ℝ) : ℕ → ℕ → ℝ := fun i j =>
  (if j = i + 1 then -400 * x i else 0)
  + (if i = j + 1 then -400 * x j else 0)
  + (if i = j then RosenbrockDiagonal n x i else 0)

/-- Embedding of `Rosenbrock_second_derivative_p(x, p)`: the result starts as
`np.zeros_like(x)`; `Hp[0] = (1200*x[0]**2 - 400*x[1] + 2)*p[0] - 400*x[0]*p[1]`,
`Hp[1:-1] = -400*x[:-2]*p[:-2] + (202 + 1200*x[1:-1]**2 - 400*x[2:])*p[1:-1] - 400*x[1:-1]*p[2:]`,
`Hp[-1] = -400*x[-2]*p[-2] + 200*p[-1]` (disjoint regions for `n ≥ 2`). -/
def Rosenbrock_second_derivative_p (n : ℕ) (x p : ℕ → ℝ) : ℕ → ℝ := fun i =>
  if i = 0 then (1200 * x 0 ^ 2 - 400 * x 1 + 2) * p 0 - 400 * x 0 * p 1
  else if i = n - 1 then -400 * x (n - 2) * p (n - 2) + 200 * p (n - 1)
  else if i < n - 1 then
    -400 * x (i - 1) * p (i - 1) + (202 + 1200 * x i ^ 2 - 400 * x (i + 1)) * p i
      - 400 * x i * p (i + 1)
  else 0

/-- Matrix-vector product of an `n × n` matrix (given entrywise) with a vector. -/
def matVec (n : ℕ) (H : ℕ → ℕ → ℝ) (p : ℕ → ℝ) : ℕ → ℝ := fun i =>
  ∑ j ∈ Finset.range n, H i j * p j

/-!
A second, list-based embedding of the oracle functions, used for the purity and
bounds-safety claims.  A numpy array is a `List ℝ`; slice reads (`x[1:]`,
`x[:-1]`, …) never raise in numpy and are embedded by index arithmetic on the
slice (`x[1:-1][i] = x[i+1]`, `x[:-2][i] = x[i]`, `x[2:][i] = x[i+2]`), while
direct element reads (`x[0]`, `x[1]`, `x[-1]`, `x[-2]`) raise `IndexError` when
out of range and are embedded with `Option`.  Each `_run` function threads the
argument array(s) through unchanged, mirroring that the source never writes to
them, and executes its assignments in source order.
-/

/-- Negative indexing `x[-k]` (for `k ≥ 1`): defined when `k ≤ len(x)`, in
which case it is the element at position `len(x) - k`. -/
def getNeg (x : List ℝ) (k : ℕ) : Option ℝ :=
  if 1 ≤ k ∧ k ≤ x.length then x.get? (x.length - k) else none

/-- Slice assignment `a[s : s + v.length] = v`. -/
def setSlice (a : List ℝ) (s : ℕ) (v : List ℝ) : List ℝ :=
  a.take s ++ v ++ a.drop (s + v.length)

/-- `np.diag(v, 1)`: square matrix of size `len(v) + 1` with `v` on the first
superdiagonal. -/
def npDiagUpper (v : List ℝ) : List (List ℝ) :=
  List.ofFn fun i : Fin (v.length + 1) => List.ofFn fun j : Fin (v.length + 1) =>
    if (j : ℕ) = (i : ℕ) + 1 then v.getD (i : ℕ) 0 else 0

/-- `np.diag(v, -1)`: square matrix of size `len(v) + 1` with `v` on the first
subdiagonal. -/
def npDiagLower (v : List ℝ) : List (List ℝ) :=
  List.ofFn fun i : Fin (v.length + 1) => List.ofFn fun j : Fin (v.length + 1) =>
    if (i : ℕ) = (j : ℕ) + 1 then v.getD (j : ℕ) 0 else 0

/-- `np.diag(d)`: square matrix with `d` on the main diagonal. -/
def npDiag (d : List ℝ) : List (List ℝ) :=
  List.ofFn fun i : Fin d.length => List.ofFn fun j : Fin d.length =>
    if (j : ℕ) = (i : ℕ) then d.getD (i : ℕ) 0 else 0

/-- Elementwise matrix sum (all uses have equal shapes). -/
def matAdd (A B : List (List ℝ)) : List (List ℝ) :=
  List.zipWith (List.zipWith (· + ·)) A B

/-- Elementwise matrix difference (all uses have equal shapes). -/
def matSub (A B : List (List ℝ)) : List (List ℝ) :=
  List.zipWith (List.zipWith (· - ·)) A B

/-- State-threaded embedding of `Rosenbrock(x)`: only slice reads occur, so the
call always succeeds; it returns the argument (unchanged) and the scalar
`np.sum(100.0 * (x[1:] - x[:-1]**2)**2 + (1 - x[:-1])**2)`. -/
def Rosenbrock_run (x : List ℝ) : List ℝ × ℝ :=
  (x, (List.ofFn fun i : Fin (x.length - 1) =>
      100 * (x.getD ((i : ℕ) + 1) 0 - x.getD (i : ℕ) 0 ^ 2) ^ 2
        + (1 - x.getD (i : ℕ) 0) ^ 2).sum)

/-- State-threaded, bounds-checked embedding of `Rosenbrock_derivative(x)`:
`derivative = np.zeros_like(x)`; `derivative[1:-1] = 200*(xm - xm_m1**2) -
400*xm*(xm_p1 - xm**2) - 2*(1 - xm)` (slices, cannot raise); then the checked
reads `x[0]`, `x[1]` for `derivative[0]` and `x[-1]`, `x[-2]` for
`derivative[-1]`, in source order.  Returns (argument after the call, result). -/
def Rosenbrock_derivative_run (x : List ℝ) : Option (List ℝ × List ℝ) := do
  let middle := List.ofFn fun i : Fin (x.length - 2) =>
    200 * (x.getD ((i : ℕ) + 1) 0 - x.getD (i : ℕ) 0 ^ 2)
      - 400 * x.getD ((i : ℕ) + 1) 0
        * (x.getD ((i : ℕ) + 2) 0 - x.getD ((i : ℕ) + 1) 0 ^ 2)
      - 2 * (1 - x.getD ((i : ℕ) + 1) 0)
  let derivative := setSlice (List.replicate x.length 0) 1 middle
  let x0 ← x.get? 0
  let x1 ← x.get? 1
  let derivative := derivative.set 0 (-400 * x0 * (x1 - x0 ^ 2) - 2 * (1 - x0))
  let xl1 ← getNeg x 1
  let xl2 ← getNeg x 2
  let derivative := derivative.set (x.length - 1) (200 * (xl1 - xl2 ^ 2))
  return (x, derivative)

/-- State-threaded, bounds-checked embedding of `Rosenbrock_second_derivative(x)`:
`H = np.diag(-400*x[:-1], 1) - np.diag(400*x[:-1], -1)` (slices, cannot raise);
`diagonal = np.zeros_like(x)`; `diagonal[0] = 1200*x[0]**2 - 400*x[1] + 2`
(checked reads `x[0]`, `x[1]`); `diagonal[-1] = 200`;
`diagonal[1:-1] = 202 + 1200*x[1:-1]**2 - 400*x[2:]`; returns
(argument after the call, `H + np.diag(diagonal)`). -/
def Rosenbrock_second_derivative_run (x : List ℝ) :
    Option (List ℝ × List (List ℝ)) := do
  let front := x.take (x.length - 1)
  let H := matSub (npDiagUpper (front.map fun a => -400 * a))
    (npDiagLower (front.map fun a => 400 * a))
  let diagonal := List.replicate x.length (0 : ℝ)
  let x0 ← x.get? 0
  let x1 ← x.get? 1
  let diagonal := diagonal.set 0 (1200 * x0 ^ 2 - 400 * x1 + 2)
  let diagonal := diagonal.set (x.length - 1) 200
  let middle := List.ofFn fun i : Fin (x.length - 2) =>
    202 + 1200 * x.getD ((i : ℕ) + 1) 0 ^ 2 - 400 * x.getD ((i : ℕ) + 2) 0
  let diagonal := setSlice diagonal 1 middle
  return (x, matAdd H (npDiag diagonal))

/-- State-threaded, bounds-checked embedding of
`Rosenbrock_second_derivative_p(x, p)`: `Hp = np.zeros_like(x)`;
`Hp[0] = (1200*x[0]**2 - 400*x[1] + 2)*p[0] - 400*x[0]*p[1]` (checked reads in
source order `x[0]`, `x[1]`, `p[0]`, `p[1]`); `Hp[1:-1] = -400*x[:-2]*p[:-2] +
(202 + 1200*x[1:-1]**2 - 400*x[2:])*p[1:-1] - 400*x[1:-1]*p[2:]` (slices);
`Hp[-1] = -400*x[-2]*p[-2] + 200*p[-1]` (checked reads).  Returns
(`x` after the call, `p` after the call, result). -/
def Rosenbrock_second_derivative_p_run (x p : List ℝ) :
    Option (List ℝ × List ℝ × List ℝ) := do
  let Hp := List.replicate x.length (0 : ℝ)
  let x0 ← x.get? 0
  let x1 ← x.get? 1
  let p0 ← p.get? 0
  let p1 ← p.get? 1
  let Hp := Hp.set 0 ((1200 * x0 ^ 2 - 400 * x1 + 2) * p0 - 400 * x0 * p1)
  let middle := List.ofFn fun i : Fin (x.length - 2) =>
    -400 * x.getD (i : ℕ) 0 * p.getD (i : ℕ) 0
      + (202 + 1200 * x.getD ((i : ℕ) + 1) 0 ^ 2 - 400 * x.getD ((i : ℕ) + 2) 0)
        * p.getD ((i : ℕ) + 1) 0
      - 400 * x.getD ((i : ℕ) + 1) 0 * p.getD ((i : ℕ) + 2) 0
  let Hp := setSlice Hp 1 middle
  let xm2 ← getNeg x 2
  let pm2 ← getNeg p 2
  let pm1 ← getNeg p 1
  let Hp := Hp.set (x.length - 1) (-400 * xm2 * pm2 + 200 * pm1)
  return (x, p, Hp)

/-- Dot product of the first `n` coordinates of two vectors. -/
def dotN {K : Type*} [LinearOrderedField K] (n : ℕ) (u v : ℕ → K) : K :=
  ∑ i ∈ Finset.range n, u i * v i

/-- Modelled from the spec: the descent-direction safeguard of §4.2 — the
minimizer itself is a scipy library routine not present in the repository.  If
the candidate direction `d0` returned by the CG solver has `d0ᵀg ≥ 0` (not a
descent direction), fall back to steepest descent `-g` for that outer
iteration. -/
def safeguard {K : Type*} [LinearOrderedField K] (n : ℕ) (g d0 : ℕ → K) : ℕ → K :=
  if dotN n g d0 < 0 then d0 else fun i => -g i

/-- Modelled from the spec: the backtracking Armijo line search of §4.3 — the
minimizer itself is a scipy library routine not present in the repository.
Given `f`, the current point `x`, a direction `d`, the values `fx = f(x)` and
`gd = gᵀd`, and the sufficient-decrease constant `c₁`, accept the current step
`α` when `f(x + α·d) ≤ f(x) + c₁·α·gᵀd`, otherwise halve `α` and retry; `none`
after the backtracking budget is exhausted. -/
def lineSearch {K : Type*} [LinearOrderedField K] (f : (ℕ → K) → K) (x d : ℕ → K)
    (fx gd c₁ : K) : ℕ → K → Option K
  | 0, _ => none
  | fuel + 1, α =>
    if f (fun i => x i + α * d i) ≤ fx + c₁ * α * gd then some α
    else lineSearch f x d fx gd c₁ fuel (α / 2)

/-- Modelled from the spec: the outer driver of §4.4 — the minimizer itself is
a scipy library routine not present in the repository.  Starting from `x`, each
outer iteration recomputes the gradient, stops when its norm is at most `gtol`
(squared comparison, avoiding square roots), otherwise obtains a candidate
direction from the CG solver (abstracted as `dirFn`, since the claimed
guarantee is independent of the direction choice), applies the descent
safeguard, runs the Armijo line search from `α = 1`, and accepts the step.
Terminal states (convergence, line-search failure, iteration cap) end the
trace.  Returns the sequence of iterates `x₀, x₁, …`. -/
def driverTrace {K : Type*} [LinearOrderedField K] (n : ℕ) (f : (ℕ → K) → K)
    (gradf : (ℕ → K) → ℕ → K) (dirFn : (ℕ → K) → (ℕ → K) → ℕ → K)
    (gtol c₁ : K) (lsFuel : ℕ) : ℕ → (ℕ → K) → List (ℕ → K)
  | 0, x => [x]
  | maxiter + 1, x =>
    if dotN n (gradf x) (gradf x) ≤ gtol * gtol then [x]
    else
      match lineSearch f x (safeguard n (gradf x) (dirFn x (gradf x))) (f x)
          (dotN n (gradf x) (safeguard n (gradf x) (dirFn x (gradf x)))) c₁ lsFuel 1 with
      | none => [x]
      | some α =>
        x :: driverTrace n f gradf dirFn gtol c₁ lsFuel maxiter
          (fun i => x i + α * safeguard n (gradf x) (dirFn x (gradf x)) i)

/-- Summing `if j = k then f j else 0` over `j < n` picks out `f k` when `k < n`. -/
theorem sum_ite_lt {n k : ℕ} (hk : k < n) (f : ℕ → ℝ) :
    (∑ j ∈ Finset.range n, if j = k then f j else 0) = f k := by
  rw [Finset.sum_ite_eq' (Finset.range n) k f, if_pos (Finset.mem_range.mpr hk)]

/-- Summing `if j = k then f j else 0` over `j < n` gives `0` when `k ≥ n`. -/
theorem sum_ite_ge {n k : ℕ} (hk : n ≤ k) (f : ℕ → ℝ) :
    (∑ j ∈ Finset.range n, if j = k then f j else 0) = 0 := by
  rw [Finset.sum_ite_eq' (Finset.range n) k f, if_neg]
  simp [Finset.mem_range]; omega

/-- Row `0` of the dense Hessian dotted with `p`, in closed form. -/
theorem matVec_rsd_zero (n : ℕ) (x p : ℕ → ℝ) (hn : 2 ≤ n) :
    matVec n (Rosenbrock_second_derivative n x) p 0
      = -400 * x 0 * p 1 + RosenbrockDiagonal n x 0 * p 0 := by
  simp only [matVec, Rosenbrock_second_derivative]
  have hsplit : (∑ j ∈ Finset.range n,
      ((if j = 0 + 1 then -400 * x 0 else 0) + (if 0 = j + 1 then -400 * x j else 0)
        + (if 0 = j then RosenbrockDiagonal n x 0 else 0)) * p j)
      = (∑ j ∈ Finset.range n, if j = 1 then -400 * x 0 * p j else 0)
        + (∑ j ∈ Finset.range n, if j = 0 then RosenbrockDiagonal n x 0 * p j else 0) := by
    rw [← Finset.sum_add_distrib]
    refine Finset.sum_congr rfl fun j hj => ?_
    split_ifs <;> first | ring1 | contradiction | (exfalso; omega)
  rw [hsplit]
  simp only [sum_ite_lt (show 1 < n by omega), sum_ite_lt (show 0 < n by omega)]

/-- Row `i ≥ 1` of the dense Hessian dotted with `p`, in closed form. -/
theorem matVec_rsd_pos (n : ℕ) (x p : ℕ → ℝ) (i : ℕ) (h1 : 1 ≤ i) (hi : i < n) :
    matVec n (Rosenbrock_second_derivative n x) p i
      = (if i + 1 < n then -400 * x i * p (i + 1) else 0)
        + -400 * x (i - 1) * p (i - 1) + RosenbrockDiagonal n x i * p i := by
  simp only [matVec, Rosenbrock_second_derivative]
  have hsplit : (∑ j ∈ Finset.range n,
      ((if j = i + 1 then -400 * x i else 0) + (if i = j + 1 then -400 * x j else 0)
        + (if i = j then RosenbrockDiagonal n x i else 0)) * p j)
      = (∑ j ∈ Finset.range n, if j = i + 1 then -400 * x i * p j else 0)
        + (∑ j ∈ Finset.range n, if j = i - 1 then -400 * x j * p j else 0)
        + (∑ j ∈ Finset.range n, if j = i then RosenbrockDiagonal n x i * p j else 0) := by
    rw [← Finset.sum_add_distrib, ← Finset.sum_add_distrib]
    refine Finset.sum_congr rfl fun j hj => ?_
    split_ifs <;> first | ring1 | contradiction | (exfalso; omega)
  rw [hsplit]
  simp only [sum_ite_lt (show i - 1 < n by omega), sum_ite_lt (show i < n from hi)]
  by_cases hin : i + 1 < n
  · simp only [sum_ite_lt hin, if_pos hin]
  · simp only [sum_ite_ge (show n ≤ i + 1 by omega), if_neg hin]

/-- C1: for every dimension `n ≥ 2`, all vectors `x`, `p` and every component
`i < n`, the Hessian-vector-product routine `Rosenbrock_second_derivative_p`
agrees with the matrix-vector product of the dense Hessian
`Rosenbrock_second_derivative` with `p`: the two routines denote the same
linear operator. -/
theorem rosenbrock_hessp_eq_matvec (n : ℕ) (hn : 2 ≤ n) (x p : ℕ → ℝ) (i : ℕ)
    (hi : i < n) :
    Rosenbrock_second_derivative_p n x p i
      = matVec n (Rosenbrock_second_derivative n x) p i := by
  rcases Nat.eq_zero_or_pos i with rfl | h1
  · rw [matVec_rsd_zero n x p hn]
    have hl : Rosenbrock_second_derivative_p n x p 0
        = (1200 * x 0 ^ 2 - 400 * x 1 + 2) * p 0 - 400 * x 0 * p 1 := by
      unfold Rosenbrock_second_derivative_p
      rw [if_pos rfl]
    have hd : RosenbrockDiagonal n x 0 = 1200 * x 0 ^ 2 - 400 * x 1 + 2 := by
      unfold RosenbrockDiagonal
      rw [if_pos rfl]
    rw [hl, hd]
    ring
  · rw [matVec_rsd_pos n x p i h1 hi]
    rcases eq_or_ne i (n - 1) with rfl | hlast
    · have hl : Rosenbrock_second_derivative_p n x p (n - 1)
          = -400 * x (n - 2) * p (n - 2) + 200 * p (n - 1) := by
        unfold Rosenbrock_second_derivative_p
        rw [if_neg (show ¬ n - 1 = 0 by omega), if_pos rfl]
      have hd : RosenbrockDiagonal n x (n - 1) = 200 := by
        unfold RosenbrockDiagonal
        rw [if_neg (show ¬ n - 1 = 0 by omega), if_pos rfl]
      have e2 : n - 1 - 1 = n - 2 := by omega
      rw [hl, hd, if_neg (show ¬ n - 1 + 1 < n by omega), e2]
      ring
    · have hmid : i < n - 1 := by omega
      have hl : Rosenbrock_second_derivative_p n x p i
          = -400 * x (i - 1) * p (i - 1) + (202 + 1200 * x i ^ 2 - 400 * x (i + 1)) * p i
            - 400 * x i * p (i + 1) := by
        unfold Rosenbrock_second_derivative_p
        rw [if_neg (show ¬ i = 0 by omega), if_neg hlast, if_pos hmid]
      have hd : RosenbrockDiagonal n x i = 202 + 1200 * x i ^ 2 - 400 * x (i + 1) := by
        unfold RosenbrockDiagonal
        rw [if_neg (show ¬ i = 0 by omega), if_neg hlast, if_pos hmid]
      rw [hl, hd, if_pos (show i + 1 < n by omega)]
      ring

/-- Witness for `rosenbrock_hessp_eq_matvec` at `n = 2`, `x = p = (1, 1)`, `i = 0`. -/
theorem rosenbrock_hessp_eq_matvec_witness :
    Rosenbrock_second_derivative_p 2 (fun _ => 1) (fun _ => 1) 0
      = matVec 2 (Rosenbrock_second_derivative 2 (fun _ => 1)) (fun _ => 1) 0 :=
  rosenbrock_hessp_eq_matvec 2 (by decide) (fun _ => 1) (fun _ => 1) 0 (by decide)

/-- Derivative in `t` of `100*(a - t^2)^2 + (1 - t)^2`. -/
theorem hasDerivAt_term_self (a t0 : ℝ) :
    HasDerivAt (fun t : ℝ => 100 * (a - t ^ 2) ^ 2 + (1 - t) ^ 2)
      (-400 * t0 * (a - t0 ^ 2) - 2 * (1 - t0)) t0 := by
  have h1 : HasDerivAt (fun t : ℝ => a - t ^ 2) (-(2 * t0 ^ 1)) t0 :=
    (hasDerivAt_pow 2 t0).const_sub a
  have h2 := (h1.pow 2).const_mul (100 : ℝ)
  have h3 : HasDerivAt (fun t : ℝ => 1 - t) (-1) t0 := (hasDerivAt_id t0).const_sub 1
  have h4 := h3.pow 2
  convert h2.add h4 using 1
  push_cast
  ring

/-- Derivative in `t` of `100*(t - b)^2 + c`. -/
theorem hasDerivAt_term_prev (b c t0 : ℝ) :
    HasDerivAt (fun t : ℝ => 100 * (t - b) ^ 2 + c) (200 * (t0 - b)) t0 := by
  have h1 : HasDerivAt (fun t : ℝ => t - b) 1 t0 := (hasDerivAt_id t0).sub_const b
  have h2 := ((h1.pow 2).const_mul (100 : ℝ)).add_const c
  convert h2 using 1
  push_cast
  ring

/-- C2: for every dimension `n ≥ 2` and every `x`, the routine
`Rosenbrock_derivative` returns a vector of the dimension of `x` (its entries
beyond index `n-1` are the zeros `np.zeros_like` put there) whose `i`-th
component is the partial derivative of the embedded `Rosenbrock` objective with
respect to `x_i` at `x`. -/
theorem rosenbrock_derivative_is_gradient (n : ℕ) (hn : 2 ≤ n) (x : ℕ → ℝ) :
    (∀ i, i < n → HasDerivAt (fun t => Rosenbrock n (Function.update x i t))
        (Rosenbrock_derivative n x i) (x i)) ∧
    (∀ j, n ≤ j → Rosenbrock_derivative n x j = 0) := by
  constructor
  · intro i hi
    have key : ∀ j ∈ Finset.range (n - 1),
        HasDerivAt (fun t : ℝ =>
            100 * ((Function.update x i t) (j + 1) - (Function.update x i t) j ^ 2) ^ 2
              + (1 - (Function.update x i t) j) ^ 2)
          ((if j = i then -400 * x i * (x (i + 1) - x i ^ 2) - 2 * (1 - x i) else 0)
            + (if j + 1 = i then 200 * (x i - x j ^ 2) else 0)) (x i) := by
      intro j hj
      rcases eq_or_ne j i with rfl | hji
      · have hne : ¬ j + 1 = j := by omega
        simp only [Function.update_apply, if_pos rfl, if_neg hne]
        simpa using hasDerivAt_term_self (x (j + 1)) (x j)
      · rcases eq_or_ne (j + 1) i with rfl | hne1
        · have hne : ¬ j = j + 1 := by omega
          simp only [Function.update_apply, if_pos rfl, if_neg hne]
          simpa using hasDerivAt_term_prev (x j ^ 2) ((1 - x j) ^ 2) (x (j + 1))
        · simp only [Function.update_apply, if_neg hji, if_neg hne1]
          simpa using hasDerivAt_const (x i)
              (100 * (x (j + 1) - x j ^ 2) ^ 2 + (1 - x j) ^ 2)
    have hsum := HasDerivAt.sum key
    have hval : (∑ j ∈ Finset.range (n - 1),
        ((if j = i then -400 * x i * (x (i + 1) - x i ^ 2) - 2 * (1 - x i) else 0)
          + (if j + 1 = i then 200 * (x i - x j ^ 2) else 0)))
        = Rosenbrock_derivative n x i := by
      rw [Finset.sum_add_distrib]
      rcases Nat.eq_zero_or_pos i with rfl | h1
      · have hz : (∑ j ∈ Finset.range (n - 1),
            if j + 1 = 0 then 200 * (x 0 - x j ^ 2) else 0) = 0 :=
          Finset.sum_eq_zero fun j _ => by simp
        rw [hz, sum_ite_lt (show 0 < n - 1 by omega)]
        unfold Rosenbrock_derivative
        rw [if_pos rfl]
        ring
      · have hcongr : (∑ j ∈ Finset.range (n - 1),
            if j + 1 = i then 200 * (x i - x j ^ 2) else 0)
            = ∑ j ∈ Finset.range (n - 1),
              if j = i - 1 then 200 * (x i - x j ^ 2) else 0 := by
          refine Finset.sum_congr rfl fun j _ => ?_
          exact if_congr (by omega) rfl rfl
        rw [hcongr, sum_ite_lt (show i - 1 < n - 1 by omega)]
        rcases eq_or_ne i (n - 1) with rfl | hlast
        · rw [sum_ite_ge (le_refl (n - 1))]
          unfold Rosenbrock_derivative
          rw [if_neg (show ¬ n - 1 = 0 by omega), if_pos rfl]
          have e2 : n - 1 - 1 = n - 2 := by omega
          rw [e2]
          ring
        · rw [sum_ite_lt (show i < n - 1 by omega)]
          unfold Rosenbrock_derivative
          rw [if_neg (show ¬ i = 0 by omega), if_neg hlast,
            if_pos (show i < n - 1 by omega)]
          ring
    rw [hval] at hsum
    exact hsum
  · intro j hj
    unfold Rosenbrock_derivative
    rw [if_neg (show ¬ j = 0 by omega), if_neg (show ¬ j = n - 1 by omega),
      if_neg (show ¬ j < n - 1 by omega)]

/-- Witness for `rosenbrock_derivative_is_gradient` at `n = 2`, `x = (1, 1, …)`. -/
theorem rosenbrock_derivative_is_gradient_witness :
    (∀ i, i < 2 → HasDerivAt
        (fun t => Rosenbrock 2 (Function.update (fun _ : ℕ => (1 : ℝ)) i t))
        (Rosenbrock_derivative 2 (fun _ => 1) i) ((fun _ : ℕ => (1 : ℝ)) i)) ∧
    (∀ j, 2 ≤ j → Rosenbrock_derivative 2 (fun _ => 1) j = 0) :=
  rosenbrock_derivative_is_gradient 2 (by decide) (fun _ => 1)

/-- C3: the dense Hessian returned by `Rosenbrock_second_derivative` is
symmetric: `H[i][j] = H[j][i]` for all indices `i`, `j` (for every dimension
`n` and vector `x`; in particular for all `n ≥ 2` and `i, j < n`). -/
theorem rosenbrock_second_derivative_symm (n : ℕ) (x : ℕ → ℝ) (i j : ℕ) :
    Rosenbrock_second_derivative n x i j = Rosenbrock_second_derivative n x j i := by
  unfold Rosenbrock_second_derivative
  rcases eq_or_ne i j with rfl | hij
  · ring
  · rw [if_neg hij, if_neg (Ne.symm hij)]
    split_ifs <;> ring

/-- C8: `Rosenbrock(x) ≥ 0` for every `x`, the all-ones vector attains the
value `0`, and hence the all-ones vector is a global minimizer of the embedded
objective. -/
theorem rosenbrock_nonneg_and_ones_min (n : ℕ) (hn : 2 ≤ n) :
    (∀ x : ℕ → ℝ, 0 ≤ Rosenbrock n x) ∧
    Rosenbrock n (fun _ => 1) = 0 ∧
    (∀ y : ℕ → ℝ, Rosenbrock n (fun _ => 1) ≤ Rosenbrock n y) := by
  have hpos : ∀ x : ℕ → ℝ, 0 ≤ Rosenbrock n x := by
    intro x
    refine Finset.sum_nonneg fun i _ => ?_
    positivity
  have hones : Rosenbrock n (fun _ => 1) = 0 := by
    unfold Rosenbrock
    refine Finset.sum_eq_zero fun i _ => by norm_num
  exact ⟨hpos, hones, fun y => hones ▸ hpos y⟩

/-- Witness for `rosenbrock_nonneg_and_ones_min` at `n = 2`. -/
theorem rosenbrock_nonneg_and_ones_min_witness :
    (∀ x : ℕ → ℝ, 0 ≤ Rosenbrock 2 x) ∧
    Rosenbrock 2 (fun _ => 1) = 0 ∧
    (∀ y : ℕ → ℝ, Rosenbrock 2 (fun _ => 1) ≤ Rosenbrock 2 y) :=
  rosenbrock_nonneg_and_ones_min 2 (by decide)

/-- C9: the gradient routine `Rosenbrock_derivative` applied to the all-ones
vector returns the zero vector: the point the end-to-end scenario converges to
is a stationary point of the supplied gradient. -/
theorem rosenbrock_derivative_at_ones (n : ℕ) (hn : 2 ≤ n) (i : ℕ) :
    Rosenbrock_derivative n (fun _ => 1) i = 0 := by
  unfold Rosenbrock_derivative
  split_ifs <;> norm_num

/-- Witness for `rosenbrock_derivative_at_ones` at `n = 2`, `i = 0`. -/
theorem rosenbrock_derivative_at_ones_witness :
    Rosenbrock_derivative 2 (fun _ => 1) 0 = 0 :=
  rosenbrock_derivative_at_ones 2 (by decide) 0

/-- A step accepted by `lineSearch` is positive (when started from a positive
step) and satisfies the Armijo sufficient-decrease inequality. -/
theorem lineSearch_accepted {K : Type*} [LinearOrderedField K] (f : (ℕ → K) → K)
    (x d : ℕ → K) (fx gd c₁ : K) :
    ∀ fuel α₀ αr, 0 < α₀ → lineSearch f x d fx gd c₁ fuel α₀ = some αr →
      0 < αr ∧ f (fun i => x i + αr * d i) ≤ fx + c₁ * αr * gd := by
  intro fuel
  induction fuel with
  | zero =>
    intro α₀ αr h0 hls
    simp [lineSearch] at hls
  | succ k ih =>
    intro α₀ αr h0 hls
    rw [lineSearch] at hls
    by_cases hc : f (fun i => x i + α₀ * d i) ≤ fx + c₁ * α₀ * gd
    · rw [if_pos hc] at hls
      cases hls
      exact ⟨h0, hc⟩
    · rw [if_neg hc] at hls
      exact ih (α₀ / 2) αr (by positivity) hls

/-- After the safeguard, the direction handed to the line search has
non-positive inner product with the gradient. -/
theorem dotN_safeguard_nonpos {K : Type*} [LinearOrderedField K] (n : ℕ)
    (g d0 : ℕ → K) : dotN n g (safeguard n g d0) ≤ 0 := by
  unfold safeguard
  by_cases h : dotN n g d0 < 0
  · rw [if_pos h]
    exact le_of_lt h
  · rw [if_neg h]
    unfold dotN
    refine Finset.sum_nonpos fun i _ => ?_
    show g i * (-g i) ≤ 0
    nlinarith [mul_self_nonneg (g i)]

/-- The trace produced by the driver always starts at the given iterate. -/
theorem driverTrace_head {K : Type*} [LinearOrderedField K] (n : ℕ)
    (f : (ℕ → K) → K) (gradf : (ℕ → K) → ℕ → K)
    (dirFn : (ℕ → K) → (ℕ → K) → ℕ → K) (gtol c₁ : K) (lsFuel : ℕ)
    (maxiter : ℕ) (x : ℕ → K) :
    (driverTrace n f gradf dirFn gtol c₁ lsFuel maxiter x).head? = some x := by
  cases maxiter with
  | zero => rfl
  | succ k =>
    rw [driverTrace]
    split
    · rfl
    · split <;> rfl

/-- Each consecutive pair of iterates in the driver trace does not increase
`f`: every accepted step satisfies the Armijo inequality, whose right-hand
side is at most `f(x)` because the safeguarded direction satisfies `gᵀd ≤ 0`. -/
theorem driverTrace_chain {K : Type*} [LinearOrderedField K] (n : ℕ)
    (f : (ℕ → K) → K) (gradf : (ℕ → K) → ℕ → K)
    (dirFn : (ℕ → K) → (ℕ → K) → ℕ → K) (gtol c₁ : K) (hc₁ : 0 ≤ c₁)
    (lsFuel : ℕ) :
    ∀ maxiter (x : ℕ → K),
      List.Chain' (fun a b => f b ≤ f a)
        (driverTrace n f gradf dirFn gtol c₁ lsFuel maxiter x) := by
  intro maxiter
  induction maxiter with
  | zero => intro x; simp [driverTrace]
  | succ k ih =>
    intro x
    rw [driverTrace]
    split
    · simp
    · split
      · simp
      · rename_i α hls
        refine List.Chain'.cons' (ih _) ?_
        intro y hy
        rw [driverTrace_head] at hy
        cases hy
        obtain ⟨hα, harm⟩ := lineSearch_accepted f x
          (safeguard n (gradf x) (dirFn x (gradf x))) (f x)
          (dotN n (gradf x) (safeguard n (gradf x) (dirFn x (gradf x)))) c₁
          lsFuel 1 α one_pos hls
        have hgd := dotN_safeguard_nonpos n (gradf x) (dirFn x (gradf x))
        have hterm : c₁ * α * dotN n (gradf x)
            (safeguard n (gradf x) (dirFn x (gradf x))) ≤ 0 := by
          have hca : 0 ≤ c₁ * α := mul_nonneg hc₁ (le_of_lt hα)
          exact mul_nonpos_of_nonneg_of_nonpos hca hgd
        calc f (fun i => x i + α * safeguard n (gradf x) (dirFn x (gradf x)) i)
            ≤ f x + c₁ * α * dotN n (gradf x)
              (safeguard n (gradf x) (dirFn x (gradf x))) := harm
          _ ≤ f x := by linarith

/-- C4: for any starting point `x₀`, the sequence of objective values
`f(xₖ)` along the iterates produced by the outer driver minimizing the
embedded `Rosenbrock` objective (with its gradient routine, any CG direction
choice `dirFn`, any tolerances and iteration budgets, and any sufficient-
decrease constant `c₁ ≥ 0`) is non-increasing: the line search only accepts
steps satisfying the sufficient-decrease condition. -/
theorem driver_rosenbrock_f_nonincreasing (n : ℕ)
    (dirFn : (ℕ → ℝ) → (ℕ → ℝ) → ℕ → ℝ) (gtol c₁ : ℝ) (hc₁ : 0 ≤ c₁)
    (lsFuel maxiter : ℕ) (x0 : ℕ → ℝ) :
    List.Chain' (fun a b => Rosenbrock n b ≤ Rosenbrock n a)
      (driverTrace n (Rosenbrock n) (Rosenbrock_derivative n) dirFn gtol c₁
        lsFuel maxiter x0) :=
  driverTrace_chain n (Rosenbrock n) (Rosenbrock_derivative n) dirFn gtol c₁
    hc₁ lsFuel maxiter x0

/-- Witness for `driver_rosenbrock_f_nonincreasing`: dimension 2, steepest
descent directions, `gtol = 1`, `c₁ = 1`, a backtracking budget of 3, an outer
budget of 3 and start `x₀ = (2, 2, …)`. -/
theorem driver_rosenbrock_f_nonincreasing_witness :
    List.Chain' (fun a b => Rosenbrock 2 b ≤ Rosenbrock 2 a)
      (driverTrace 2 (Rosenbrock 2) (Rosenbrock_derivative 2)
        (fun _ g i => -g i) 1 1 3 3 (fun _ => 2)) :=
  driver_rosenbrock_f_nonincreasing 2 (fun _ g i => -g i) 1 1 zero_le_one 3 3
    (fun _ => 2)

/-- An in-range checked read yields a value. -/
theorem get?_some_of_lt {x : List ℝ} {i : ℕ} (h : i < x.length) :
    ∃ v, x[i]? = some v :=
  ⟨x[i], List.getElem?_eq_getElem h⟩

/-- An in-range negative-index read yields a value. -/
theorem getNeg_some {x : List ℝ} {k : ℕ} (h1 : 1 ≤ k) (h2 : k ≤ x.length) :
    ∃ v, getNeg x k = some v := by
  unfold getNeg
  rw [if_pos ⟨h1, h2⟩, List.get?_eq_getElem?]
  exact get?_some_of_lt (by omega)

/-- C10: under the precondition `2 ≤ len(x)` (and `p` of the same length),
every checked index access performed by `Rosenbrock_derivative`,
`Rosenbrock_second_derivative` and `Rosenbrock_second_derivative_p` is in
bounds, so the calls succeed; for length-1 input the accesses `x[1]`, `x[-2]`,
`p[-2]` are out of range and each call fails. -/
theorem rosenbrock_oracles_index_safety (x p : List ℝ) :
    (2 ≤ x.length → p.length = x.length →
      (Rosenbrock_derivative_run x).isSome ∧
      (Rosenbrock_second_derivative_run x).isSome ∧
      (Rosenbrock_second_derivative_p_run x p).isSome) ∧
    (x.length = 1 → p.length = 1 →
      Rosenbrock_derivative_run x = none ∧
      Rosenbrock_second_derivative_run x = none ∧
      Rosenbrock_second_derivative_p_run x p = none) := by
  constructor
  · intro hx hp
    obtain ⟨a0, h0⟩ := get?_some_of_lt (show 0 < x.length by omega)
    obtain ⟨a1, h1⟩ := get?_some_of_lt (show 1 < x.length by omega)
    obtain ⟨b0, hp0⟩ := get?_some_of_lt (show 0 < p.length by omega)
    obtain ⟨b1, hp1⟩ := get?_some_of_lt (show 1 < p.length by omega)
    obtain ⟨c1, hg1⟩ := getNeg_some (x := x) (k := 1) (by omega) (by omega)
    obtain ⟨c2, hg2⟩ := getNeg_some (x := x) (k := 2) (by omega) (by omega)
    obtain ⟨d1, hq1⟩ := getNeg_some (x := p) (k := 1) (by omega) (by omega)
    obtain ⟨d2, hq2⟩ := getNeg_some (x := p) (k := 2) (by omega) (by omega)
    refine ⟨?_, ?_, ?_⟩
    · simp [Rosenbrock_derivative_run, h0, h1, hg1, hg2]
    · simp [Rosenbrock_second_derivative_run, h0, h1]
    · simp [Rosenbrock_second_derivative_p_run, h0, h1, hp0, hp1, hg2, hq1, hq2]
  · intro hx hp
    obtain ⟨a, rfl⟩ : ∃ a, x = [a] := by
      rcases x with _ | ⟨a, _ | ⟨b, t⟩⟩ <;> simp_all
    obtain ⟨b, rfl⟩ : ∃ b, p = [b] := by
      rcases p with _ | ⟨b, _ | ⟨c, t⟩⟩ <;> simp_all
    refine ⟨rfl, rfl, rfl⟩

/-- C7: each oracle call is pure: the argument array(s) threaded through the
state-passing embedding come back unchanged, and two calls on equal arguments
return equal results (two-run determinism). -/
theorem rosenbrock_oracles_pure (x p y q : List ℝ) (hx : x = y) (hp : p = q) :
    ((Rosenbrock_run x).1 = x ∧ Rosenbrock_run x = Rosenbrock_run y) ∧
    ((∀ out, Rosenbrock_derivative_run x = some out → out.1 = x) ∧
      Rosenbrock_derivative_run x = Rosenbrock_derivative_run y) ∧
    ((∀ out, Rosenbrock_second_derivative_run x = some out → out.1 = x) ∧
      Rosenbrock_second_derivative_run x = Rosenbrock_second_derivative_run y) ∧
    ((∀ out, Rosenbrock_second_derivative_p_run x p = some out →
        out.1 = x ∧ out.2.1 = p) ∧
      Rosenbrock_second_derivative_p_run x p
        = Rosenbrock_second_derivative_p_run y q) := by
  subst hx
  subst hp
  refine ⟨⟨rfl, rfl⟩, ⟨?_, rfl⟩, ⟨?_, rfl⟩, ⟨?_, rfl⟩⟩
  · intro out h
    simp only [Rosenbrock_derivative_run, bind, Option.bind_eq_some,
      Option.pure_def, Option.some.injEq] at h
    obtain ⟨x0, hx0, x1, hx1, g1, hg1, g2, hg2, hout⟩ := h
    subst hout
    rfl
  · intro out h
    simp only [Rosenbrock_second_derivative_run, bind, Option.bind_eq_some,
      Option.pure_def, Option.some.injEq] at h
    obtain ⟨x0, hx0, x1, hx1, hout⟩ := h
    subst hout
    rfl
  · intro out h
    simp only [Rosenbrock_second_derivative_p_run, bind, Option.bind_eq_some,
      Option.pure_def, Option.some.injEq] at h
    obtain ⟨x0, hx0, x1, hx1, p0, hp0, p1, hp1, g2, hg2, q2, hq2, q1, hq1, hout⟩ := h
    subst hout
    exact ⟨rfl, rfl⟩

/-- Witness for `rosenbrock_oracles_index_safety` combined use at concrete
inputs: part one at `x = p = [1, 2]`, part two at `x = p = [1]`. -/
theorem rosenbrock_oracles_index_safety_witness :
    ((Rosenbrock_derivative_run [(1 : ℝ), 2]).isSome ∧
      (Rosenbrock_second_derivative_run [(1 : ℝ), 2]).isSome ∧
      (Rosenbrock_second_derivative_p_run [(1 : ℝ), 2] [(1 : ℝ), 2]).isSome) ∧
    (Rosenbrock_derivative_run [(1 : ℝ)] = none ∧
      Rosenbrock_second_derivative_run [(1 : ℝ)] = none ∧
      Rosenbrock_second_derivative_p_run [(1 : ℝ)] [(1 : ℝ)] = none) :=
  ⟨(rosenbrock_oracles_index_safety [(1 : ℝ), 2] [(1 : ℝ), 2]).1 (by simp) (by simp),
    (rosenbrock_oracles_index_safety [(1 : ℝ)] [(1 : ℝ)]).2 (by simp) (by simp)⟩

/-- Witness for `rosenbrock_oracles_pure` at `x = y = [1, 2]`, `p = q = [3, 4]`. -/
theorem rosenbrock_oracles_pure_witness :
    ((Rosenbrock_run [(1 : ℝ), 2]).1 = [(1 : ℝ), 2] ∧
      Rosenbrock_run [(1 : ℝ), 2] = Rosenbrock_run [(1 : ℝ), 2]) ∧
    ((∀ out, Rosenbrock_derivative_run [(1 : ℝ), 2] = some out →
        out.1 = [(1 : ℝ), 2]) ∧
      Rosenbrock_derivative_run [(1 : ℝ), 2]
        = Rosenbrock_derivative_run [(1 : ℝ), 2]) ∧
    ((∀ out, Rosenbrock_second_derivative_run [(1 : ℝ), 2] = some out →
        out.1 = [(1 : ℝ), 2]) ∧
      Rosenbrock_second_derivative_run [(1 : ℝ), 2]
        = Rosenbrock_second_derivative_run [(1 : ℝ), 2]) ∧
    ((∀ out, Rosenbrock_second_derivative_p_run [(1 : ℝ), 2] [(3 : ℝ), 4]
          = some out → out.1 = [(1 : ℝ), 2] ∧ out.2.1 = [(3 : ℝ), 4]) ∧
      Rosenbrock_second_derivative_p_run [(1 : ℝ), 2] [(3 : ℝ), 4]
        = Rosenbrock_second_derivative_p_run [(1 : ℝ), 2] [(3 : ℝ), 4]) :=
  rosenbrock_oracles_pure [(1 : ℝ), 2] [(3 : ℝ), 4] [(1 : ℝ), 2] [(3 : ℝ), 4]
    rfl rfl
